import Mathlib

/-!
Verification of the structural-analysis core of the JsonToJackson generator
(src/main.py): the type inferencer `get_java_type`, the schema builder
`analyze_json_structure` / `analyze_object`, and the naming helpers
`to_camel_case`, `to_pascal_case` and trailing-`s` stripping.

The Python code works on already-parsed JSON values (`json.load` output);
we embed those as the inductive `JVal`.  Java types, which the source
represents as strings such as `"List<Item>"`, are embedded as the
structured inductive `JavaType` together with `renderJavaType`, which
reproduces the exact strings the source produces.
-/

/-- A parsed JSON value, as produced by Python's `json.load`:
`None`, `bool`, `int`, `float`, `str`, `list`, `dict`.
Python dicts preserve insertion order and have unique keys; we embed a
dict as its ordered `items()` list.  The numeric payload of a `float` is
never inspected by the source (`isinstance(value, float)` only), so the
`float` constructor carries no payload. -/
inductive JVal where
  | null : JVal
  | bool (b : Bool) : JVal
  | int (n : Int) : JVal
  | float : JVal
  | str (s : String) : JVal
  | arr (xs : List JVal) : JVal
  | obj (kvs : List (String × JVal)) : JVal

/-- Split a character list at every underscore, like Python's
`snake_str.split('_')` (so the empty string yields one empty component). -/
def splitUnderscore : List Char → List (List Char)
  | [] => [[]]
  | c :: rest =>
    let r := splitUnderscore rest
    if c = '_' then [] :: r
    else
      match r with
      | [] => [[c]]
      | w :: ws => (c :: w) :: ws

/-- Python's `str.capitalize()`: first character upper-cased, the rest
lower-cased (ASCII inputs; the source only feeds it JSON keys). -/
def capitalizeChars : List Char → List Char
  | [] => []
  | c :: rest => c.toUpper :: rest.map Char.toLower

/-- Embeds `to_camel_case` from src/main.py lines 8-11: split on `'_'`, keep the
first component as-is, capitalize and append the remaining components. -/
def to_camel_case (s : String) : String :=
  match splitUnderscore s.data with
  | [] => ""
  | w :: ws => String.mk (w ++ (ws.map capitalizeChars).flatten)

/-- Embeds `to_pascal_case` from src/main.py lines 13-16: split on `'_'` and
capitalize every component. -/
def to_pascal_case (s : String) : String :=
  String.mk (((splitUnderscore s.data).map capitalizeChars).flatten)

/-- Python's `key.rstrip('s')` as used on src/main.py lines 64 and 99:
remove ALL trailing `'s'` characters. -/
def rstrip_s (s : String) : String :=
  String.mk ((s.data.reverse.dropWhile (fun c => c = 's')).reverse)

/-! ### ISO date/time validators

`date_valid`, `time_valid` and `datetime_valid` (src/main.py lines 18-37)
wrap CPython's `date.fromisoformat`, `time.fromisoformat` and
`datetime.fromisoformat` in a `try`/`except` returning `False` on any
exception (including the `TypeError` raised for non-string arguments).
The parsers below model the C implementations of those class methods in
CPython 3.10 (`Modules/_datetimemodule.c`), the strict
`isoformat`-inverse grammar the source relies on. -/

/-- Numeric value of a decimal digit character. -/
def digitVal (c : Char) : Nat := c.toNat - '0'.toNat

/-- Read exactly two decimal digits (C helper `parse_digits(p, v, 2)`). -/
def parse2 : List Char → Option (Nat × List Char)
  | c1 :: c2 :: rest =>
    if c1.isDigit && c2.isDigit then some (digitVal c1 * 10 + digitVal c2, rest) else none
  | _ => none

/-- Decimal value of a digit list. -/
def digitsToNat (l : List Char) : Nat := l.foldl (fun acc c => acc * 10 + digitVal c) 0

/-- Fractional-second parse: CPython requires exactly 3 or 6 digits after
the seconds separator; 3 digits are milliseconds (scaled by 1000). -/
def parseFrac (l : List Char) : Option Nat :=
  if l.length == 3 && l.all Char.isDigit then some (digitsToNat l * 1000)
  else if l.length == 6 && l.all Char.isDigit then some (digitsToNat l)
  else none

/-- CPython's `parse_hh_mm_ss_ff`: `HH[:MM[:SS[.fff[fff]]]]`, where (as in
the C loop) a `'.'` after any component, or a third `':'` after the
seconds, switches to fractional parsing of the remainder. -/
def parse_hh_mm_ss_ff (l : List Char) : Option (Nat × Nat × Nat × Nat) :=
  match parse2 l with
  | none => none
  | some (hh, r1) =>
    match r1 with
    | [] => some (hh, 0, 0, 0)
    | c1 :: t1 =>
      if c1 = '.' then (parseFrac t1).map (fun us => (hh, 0, 0, us))
      else if c1 = ':' then
        match parse2 t1 with
        | none => none
        | some (mm, r3) =>
          match r3 with
          | [] => some (hh, mm, 0, 0)
          | c2 :: t2 =>
            if c2 = '.' then (parseFrac t2).map (fun us => (hh, mm, 0, us))
            else if c2 = ':' then
              match parse2 t2 with
              | none => none
              | some (ss, r5) =>
                match r5 with
                | [] => some (hh, mm, ss, 0)
                | c3 :: t3 =>
                  if c3 = '.' then (parseFrac t3).map (fun us => (hh, mm, ss, us))
                  else if c3 = ':' then (parseFrac t3).map (fun us => (hh, mm, ss, us))
                  else none
            else none
      else none

/-- Split a time string at the first `'+'` or `'-'` (the C scan for the
time-zone marker); the second component starts at that sign, if any. -/
def splitTz : List Char → List Char × List Char
  | [] => ([], [])
  | c :: rest =>
    if c = '+' || c = '-' then ([], c :: rest)
    else
      let p := splitTz rest
      (c :: p.1, p.2)

/-- Range checks performed by the `time`/`datetime` constructors. -/
def timeFieldsOk (hh mm ss us : Nat) : Bool :=
  decide (hh ≤ 23) && decide (mm ≤ 59) && decide (ss ≤ 59) && decide (us ≤ 999999)

/-- A `timezone` offset must be strictly less than 24 hours in magnitude. -/
def tzOk (th tm ts tus : Nat) : Bool :=
  decide ((th * 3600 + tm * 60 + ts) * 1000000 + tus < 86400000000)

/-- The time-of-day grammar of `time.fromisoformat` (also used for the
time part of `datetime.fromisoformat`): `HH[:MM[:SS[.fff[fff]]]]`
optionally followed by a sign and a `HH:MM[:SS[.ffffff]]` offset whose
text (sign included) is 6, 9 or 16 characters long. -/
def iso_time_part (l : List Char) : Bool :=
  match parse_hh_mm_ss_ff (splitTz l).1 with
  | none => false
  | some (hh, mm, ss, us) =>
    timeFieldsOk hh mm ss us &&
    (match (splitTz l).2 with
     | [] => true
     | _ :: tzrest =>
       ((splitTz l).2.length == 6 || (splitTz l).2.length == 9 ||
         (splitTz l).2.length == 16) &&
       (match parse_hh_mm_ss_ff tzrest with
        | none => false
        | some (th, tm, ts, tus) => tzOk th tm ts tus))

/-- The date grammar of `date.fromisoformat`: exactly ten characters
`YYYY-MM-DD`, all components decimal digits. -/
def parse_isoformat_date : List Char → Option (Nat × Nat × Nat)
  | [y1, y2, y3, y4, s1, m1, m2, s2, d1, d2] =>
    if y1.isDigit && y2.isDigit && y3.isDigit && y4.isDigit && s1 == '-' &&
        m1.isDigit && m2.isDigit && s2 == '-' && d1.isDigit && d2.isDigit then
      some (digitsToNat [y1, y2, y3, y4],
            digitVal m1 * 10 + digitVal m2,
            digitVal d1 * 10 + digitVal d2)
    else none
  | _ => none

/-- Gregorian leap-year rule used by `datetime.date`. -/
def isLeapYear (y : Nat) : Bool := y % 4 == 0 && (y % 100 != 0 || y % 400 == 0)

/-- Days in a month, as validated by the `datetime.date` constructor. -/
def days_in_month (y m : Nat) : Nat :=
  if m == 2 then (if isLeapYear y then 29 else 28)
  else if m == 4 || m == 6 || m == 9 || m == 11 then 30
  else 31

/-- Range checks performed by the `date` constructor (`MINYEAR = 1`;
`MAXYEAR = 9999` is automatic for a four-digit year). -/
def dateFieldsOk (y m d : Nat) : Bool :=
  decide (1 ≤ y) && decide (1 ≤ m) && decide (m ≤ 12) && decide (1 ≤ d) &&
    decide (d ≤ days_in_month y m)

/-- Holds when `date.fromisoformat` succeeds: a well-formed, in-range `YYYY-MM-DD`. -/
def iso_date (l : List Char) : Bool :=
  match parse_isoformat_date l with
  | some (y, m, d) => dateFieldsOk y m d
  | none => false

/-- Holds when `datetime.fromisoformat` succeeds: a ten-character date, optionally
followed by one arbitrary separator character and a valid time part. -/
def iso_datetime (l : List Char) : Bool :=
  match parse_isoformat_date (l.take 10) with
  | none => false
  | some (y, m, d) =>
    dateFieldsOk y m d && (if l.length == 10 then true else iso_time_part (l.drop 11))

/-- Embeds `date_valid` from src/main.py lines 18-23: `date.fromisoformat` inside
`try`/`except`; any non-string argument raises `TypeError`, so only
strings can validate. -/
def date_valid : JVal → Bool
  | .str s => iso_date s.data
  | _ => false

/-- Embeds `time_valid` from src/main.py lines 32-37. -/
def time_valid : JVal → Bool
  | .str s => iso_time_part s.data
  | _ => false

/-- Embeds `datetime_valid` from src/main.py lines 25-30. -/
def datetime_valid : JVal → Bool
  | .str s => iso_datetime s.data
  | _ => false

/-- The Java types the source produces, in structured form.  The source
manipulates them as strings; `renderJavaType` recovers those exact
strings. -/
inductive JavaType where
  | String : JavaType
  | Boolean : JavaType
  | Integer : JavaType
  | Double : JavaType
  | LocalDate : JavaType
  | LocalTime : JavaType
  | LocalDateTime : JavaType
  | List (t : JavaType) : JavaType
  | ClassRef (name : String) : JavaType
deriving DecidableEq

/-- The exact string the source uses for a Java type (`"List<T>"` via the
f-string on src/main.py lines 65/68; a nested-class reference is just the
class name). -/
def renderJavaType : JavaType → String
  | .String => "String"
  | .Boolean => "Boolean"
  | .Integer => "Integer"
  | .Double => "Double"
  | .LocalDate => "LocalDate"
  | .LocalTime => "LocalTime"
  | .LocalDateTime => "LocalDateTime"
  | .List t => "List<" ++ renderJavaType t ++ ">"
  | .ClassRef n => n

/-- Embeds `get_java_type` from src/main.py lines 39-73.  The source's `elif`
chain checks `date_valid` / `time_valid` / `datetime_valid` before the
`isinstance` tests, but those validators return `False` for every
non-string value (the `TypeError` branch), so the checks only matter in
the string case; the dispatch below is the same function.  The source's
`field_name` parameter defaults to `""`, and the recursive call for a
non-dict first list element passes no `field_name` (line 67), i.e. `""`.
The trailing `else: return "String"` fallback is unreachable for JSON
values and has no counterpart constructor. -/
def get_java_type (value : JVal) (field_name : String) : JavaType :=
  match value with
  | .null => .String
  | .str s =>
    if iso_date s.data then .LocalDate
    else if iso_time_part s.data then .LocalTime
    else if iso_datetime s.data then .LocalDateTime
    else .String
  | .bool _ => .Boolean
  | .int _ => .Integer
  | .float => .Double
  | .arr xs =>
    match xs with
    | [] => .List .String
    | first :: _ =>
      match first with
      | .obj _ => .List (.ClassRef (to_pascal_case (rstrip_s field_name)))
      | _ => .List (get_java_type first "")
  | .obj _ => .ClassRef (to_pascal_case field_name)

/-! ### Schema builder

`analyze_json_structure` (src/main.py lines 75-118) accumulates a dict
`classes : class name → (java field name → {'type', 'original_name'})`.
We embed both dict levels as ordered association lists and Python's
`d[k] = v` as `upsert` (update in place if the key exists, else append),
which is exactly CPython's dict-assignment ordering behaviour. -/

/-- One entry of the per-field dict built on src/main.py lines 87-90. -/
structure FieldInfo where
  type : JavaType
  original_name : String
deriving DecidableEq

/-- One class's field dict: java field name to its info, in insertion order. -/
abbrev FieldMap := List (String × FieldInfo)

/-- The accumulated `classes` dict: class name to field dict. -/
abbrev Classes := List (String × FieldMap)

/-- First-match lookup in an association list (Python `d[k]` / `k in d`). -/
def lookupKey {α : Type} : List (String × α) → String → Option α
  | [], _ => none
  | (k', v) :: rest, k => if k' = k then some v else lookupKey rest k

/-- Python `d[k] = v`: overwrite in place if present, else append. -/
def upsert {α : Type} : List (String × α) → String → α → List (String × α)
  | [], k, v => [(k, v)]
  | (k', v') :: rest, k, v =>
    if k' = k then (k, v) :: rest else (k', v') :: upsert rest k v

/-- Lines 80-81: `if current_class_name not in classes: classes[...] = {}`. -/
def ensureClass (classes : Classes) (cls : String) : Classes :=
  if (lookupKey classes cls).isSome then classes else classes ++ [(cls, [])]

/-- Lines 87-90: `classes[current_class_name][java_field_name] = ...`.
The class entry always exists here (ensured on entry to
`analyze_object`); on the unreachable missing-class path this is a no-op
where Python would raise `KeyError`. -/
def setField (classes : Classes) (cls field : String) (info : FieldInfo) : Classes :=
  match classes with
  | [] => []
  | (c, m) :: rest =>
    if c = cls then (c, upsert m field info) :: rest
    else (c, m) :: setField rest cls field info

mutual

/-- Embeds `analyze_object` from src/main.py lines 79-104: ensure the class
entry exists, then process the object's fields in order. -/
def analyze_object (kvs : List (String × JVal)) (cls : String) (classes : Classes) :
    Classes :=
  analyze_fields kvs cls (ensureClass classes cls)
termination_by 2 * sizeOf kvs + 2
decreasing_by all_goals simp_wf <;> omega

/-- The `for key, value in obj.items()` loop (lines 83-104): store each
field's inferred type (lines 84-90), recurse according to the field's
value (lines 92-104, `analyze_value`), then continue with the remaining
fields. -/
def analyze_fields : List (String × JVal) → String → Classes → Classes
  | [], _, classes => classes
  | (key, value) :: rest, cls, classes =>
    analyze_fields rest cls
      (analyze_value key value
        (setField classes cls (to_camel_case key) ⟨get_java_type value key, key⟩))
termination_by kvs _ _ => 2 * sizeOf kvs + 1
decreasing_by all_goals simp_wf <;> omega

/-- Lines 92-104: recurse into a non-empty dict value under the
Pascal-cased key, or, for a non-empty list value whose first element is
a dict, visit the first element and then every later dict element under
the singularized Pascal-cased key.  All other values cause no recursion. -/
def analyze_value : String → JVal → Classes → Classes
  | key, .obj nkvs, classes =>
    if nkvs.isEmpty then classes
    else analyze_object nkvs (to_pascal_case key) classes
  | key, .arr (.obj fkvs :: restArr), classes =>
    analyze_elems restArr (to_pascal_case (rstrip_s key))
      (analyze_object fkvs (to_pascal_case (rstrip_s key)) classes)
  | _, _, classes => classes
termination_by _ value _ => 2 * sizeOf value + 1
decreasing_by all_goals simp_wf <;> omega

/-- The `for item in value[1:]` loop (lines 102-104, also reused for the
root list on lines 114-116): visit each dict element, skip the rest. -/
def analyze_elems : List JVal → String → Classes → Classes
  | [], _, classes => classes
  | .obj kvs :: rest, cls, classes => analyze_elems rest cls (analyze_object kvs cls classes)
  | _ :: rest, cls, classes => analyze_elems rest cls classes
termination_by xs _ _ => 2 * sizeOf xs + 1
decreasing_by all_goals simp_wf <;> omega

end

/-- Embeds `analyze_json_structure` from src/main.py lines 75-118: a dict root
is visited directly under the root class name; a non-empty list root
whose first element is a dict has every dict element visited under the
root class name; everything else yields the empty mapping. -/
def analyze_json_structure (data : JVal) (class_name : String) : Classes :=
  match data with
  | .obj kvs => analyze_object kvs class_name []
  | .arr [] => []
  | .arr (first :: rest) =>
    match first with
    | .obj fkvs => analyze_elems rest class_name (analyze_object fkvs class_name [])
    | _ => []
  | _ => []

example : get_java_type (.str "2024-01-15") "h" = .LocalDate := by decide
example : get_java_type (.str "13:45:00") "h" = .LocalTime := by decide
example : get_java_type (.str "2024-01-15T13:45:00") "h" = .LocalDateTime := by decide
example : get_java_type (.str "hello") "h" = .String := by decide
example : to_camel_case "user_name" = "userName" := by decide
example : to_pascal_case (rstrip_s "address") = "Addre" := by decide
example : get_java_type (.obj []) "addr" = .ClassRef "Addr" := by decide
example :
    analyze_json_structure (.obj [("items", .arr [.obj [("a", .int 1)], .obj [("b", .int 2)]])])
      "Root" =
    [("Root", [("items", ⟨.List (.ClassRef "Item"), "items"⟩)]),
     ("Item", [("a", ⟨.Integer, "a"⟩), ("b", ⟨.Integer, "b"⟩)])] := by
  simp [analyze_json_structure, analyze_object, analyze_fields, analyze_value,
    analyze_elems, ensureClass, setField, upsert, lookupKey]
  decide

/-! ### Association-list lemmas -/

theorem lookupKey_upsert {α : Type} (m : List (String × α)) (k j : String) (v : α) :
    lookupKey (upsert m k v) j = if j = k then some v else lookupKey m j := by
  induction m with
  | nil =>
    by_cases h : j = k
    · simp [upsert, lookupKey, h]
    · simp [upsert, lookupKey, h, Ne.symm h]
  | cons p rest ih =>
    obtain ⟨k0, v0⟩ := p
    by_cases hk : k0 = k
    · subst hk
      by_cases hj : j = k0
      · subst hj; simp [upsert, lookupKey]
      · simp [upsert, lookupKey, hj, Ne.symm hj]
    · by_cases hj : k0 = j
      · subst hj
        simp [upsert, lookupKey, hk, Ne.symm hk]
      · simp [upsert, lookupKey, hk, hj, ih]

theorem lookupKey_append_of_none {α : Type} (a b : List (String × α)) (k : String)
    (h : lookupKey a k = none) : lookupKey (a ++ b) k = lookupKey b k := by
  induction a with
  | nil => simp
  | cons p rest ih =>
    obtain ⟨k0, v0⟩ := p
    by_cases hk : k0 = k
    · simp [lookupKey, hk] at h
    · simp only [List.cons_append, lookupKey, hk, if_false] at h ⊢
      exact ih h

theorem lookupKey_append_of_some {α : Type} (a b : List (String × α)) (k : String)
    (v : α) (h : lookupKey a k = some v) : lookupKey (a ++ b) k = some v := by
  induction a with
  | nil => simp [lookupKey] at h
  | cons p rest ih =>
    obtain ⟨k0, v0⟩ := p
    by_cases hk : k0 = k
    · simp only [List.cons_append, lookupKey, hk, if_true] at h ⊢
      exact h
    · simp only [List.cons_append, lookupKey, hk, if_false] at h ⊢
      exact ih h

theorem lookupKey_setField (classes : Classes) (cls f : String) (i : FieldInfo)
    (c : String) :
    lookupKey (setField classes cls f i) c =
      if c = cls then (lookupKey classes cls).map (fun m => upsert m f i)
      else lookupKey classes c := by
  induction classes with
  | nil =>
    by_cases hc : c = cls <;> simp [setField, lookupKey, hc]
  | cons p rest ih =>
    obtain ⟨c0, m0⟩ := p
    by_cases h0 : c0 = cls
    · subst h0
      by_cases hc : c0 = c
      · subst hc; simp [setField, lookupKey]
      · simp [setField, lookupKey, hc, Ne.symm hc]
    · by_cases hc : c0 = c
      · subst hc
        simp [setField, lookupKey, h0, Ne.symm h0]
      · simp [setField, lookupKey, h0, hc, ih]

theorem lookupKey_ensureClass (classes : Classes) (cls c : String) :
    lookupKey (ensureClass classes cls) c =
      if c = cls then some ((lookupKey classes cls).getD []) else lookupKey classes c := by
  unfold ensureClass
  by_cases hs : (lookupKey classes cls).isSome
  · obtain ⟨m, hm⟩ := Option.isSome_iff_exists.mp hs
    simp only [hs, if_pos]
    by_cases hc : c = cls
    · subst hc; simp [hm]
    · simp [hc]
  · have hnone : lookupKey classes cls = none := Option.not_isSome_iff_eq_none.mp hs
    simp only [hs, Bool.false_eq_true, if_false]
    by_cases hc : c = cls
    · subst hc
      rw [lookupKey_append_of_none _ _ _ hnone]
      simp [lookupKey, hnone]
    · cases hl : lookupKey classes c with
      | none =>
        rw [lookupKey_append_of_none _ _ _ hl]
        simp [lookupKey, Ne.symm hc, hc]
      | some m =>
        rw [lookupKey_append_of_some _ _ _ _ hl]
        simp [hc]

/-- Class `c` exists and has a field named `f`. -/
def hasField (classes : Classes) (c f : String) : Bool :=
  ((lookupKey classes c).map (fun m => (lookupKey m f).isSome)).getD false

/-- Monotonicity relation on the accumulator: every class of `a` still
exists in `b`, and keeps (at least) all its field names. -/
def ExtendsC (a b : Classes) : Prop :=
  (∀ c, (lookupKey a c).isSome → (lookupKey b c).isSome) ∧
  (∀ c f, hasField a c f = true → hasField b c f = true)

theorem ExtendsC.rfl (a : Classes) : ExtendsC a a := ⟨fun _ h => h, fun _ _ h => h⟩

theorem ExtendsC.trans {a b c : Classes} (h1 : ExtendsC a b) (h2 : ExtendsC b c) :
    ExtendsC a c :=
  ⟨fun x h => h2.1 x (h1.1 x h), fun x f h => h2.2 x f (h1.2 x f h)⟩

theorem setField_extends (classes : Classes) (cls f : String) (i : FieldInfo) :
    ExtendsC classes (setField classes cls f i) := by
  constructor
  · intro c h
    rw [lookupKey_setField]
    by_cases hc : c = cls
    · subst hc; simpa using h
    · simpa [hc] using h
  · intro c g h
    unfold hasField at h ⊢
    rw [lookupKey_setField]
    by_cases hc : c = cls
    · subst hc
      cases hm : lookupKey classes c with
      | none => simp [hm] at h
      | some m =>
        simp only [hm] at h
        simp only [if_pos rfl, hm, Option.map, Option.getD_some] at h ⊢
        by_cases hg : g = f <;> simp [hg, h, lookupKey_upsert]
    · rw [if_neg hc]
      exact h

theorem ensureClass_extends (classes : Classes) (cls : String) :
    ExtendsC classes (ensureClass classes cls) := by
  constructor
  · intro c h
    rw [lookupKey_ensureClass]
    by_cases hc : c = cls <;> simp [hc, h]
  · intro c g h
    unfold hasField at h ⊢
    rw [lookupKey_ensureClass]
    cases hm : lookupKey classes c with
    | none => simp [hm] at h
    | some m =>
      simp only [hm, Option.map, Option.getD_some] at h
      by_cases hc : c = cls
      · subst hc; simp [hm, h]
      · simp [hc, hm, h]

mutual

theorem analyze_object_extends (kvs : List (String × JVal)) (cls : String)
    (classes : Classes) : ExtendsC classes (analyze_object kvs cls classes) := by
  rw [analyze_object]
  exact (ensureClass_extends classes cls).trans
    (analyze_fields_extends kvs cls (ensureClass classes cls))
termination_by 2 * sizeOf kvs + 2
decreasing_by all_goals simp_wf <;> omega

theorem analyze_fields_extends (kvs : List (String × JVal)) (cls : String)
    (classes : Classes) : ExtendsC classes (analyze_fields kvs cls classes) := by
  match kvs with
  | [] =>
    rw [analyze_fields]
    exact ExtendsC.rfl classes
  | (key, value) :: rest =>
    rw [analyze_fields]
    exact ((setField_extends classes cls (to_camel_case key)
        ⟨get_java_type value key, key⟩).trans
      (analyze_value_extends key value _)).trans
      (analyze_fields_extends rest cls _)
termination_by 2 * sizeOf kvs + 1
decreasing_by all_goals simp_wf <;> omega

theorem analyze_value_extends (key : String) (value : JVal) (classes : Classes) :
    ExtendsC classes (analyze_value key value classes) := by
  match value with
  | .obj nkvs =>
    rw [analyze_value.eq_def]
    by_cases h : nkvs.isEmpty
    · simp only [h, if_true]
      exact ExtendsC.rfl classes
    · simp only [h, Bool.false_eq_true, if_false]
      exact analyze_object_extends nkvs (to_pascal_case key) classes
  | .arr (.obj fkvs :: restArr) =>
    rw [analyze_value.eq_def]
    exact (analyze_object_extends fkvs (to_pascal_case (rstrip_s key)) classes).trans
      (analyze_elems_extends restArr (to_pascal_case (rstrip_s key)) _)
  | .null => rw [analyze_value.eq_def]; exact ExtendsC.rfl classes
  | .bool b => rw [analyze_value.eq_def]; exact ExtendsC.rfl classes
  | .int n => rw [analyze_value.eq_def]; exact ExtendsC.rfl classes
  | .float => rw [analyze_value.eq_def]; exact ExtendsC.rfl classes
  | .str s => rw [analyze_value.eq_def]; exact ExtendsC.rfl classes
  | .arr [] => rw [analyze_value.eq_def]; exact ExtendsC.rfl classes
  | .arr (.null :: t) => rw [analyze_value.eq_def]; exact ExtendsC.rfl classes
  | .arr (.bool b :: t) => rw [analyze_value.eq_def]; exact ExtendsC.rfl classes
  | .arr (.int n :: t) => rw [analyze_value.eq_def]; exact ExtendsC.rfl classes
  | .arr (.float :: t) => rw [analyze_value.eq_def]; exact ExtendsC.rfl classes
  | .arr (.str s :: t) => rw [analyze_value.eq_def]; exact ExtendsC.rfl classes
  | .arr (.arr ys :: t) => rw [analyze_value.eq_def]; exact ExtendsC.rfl classes
termination_by 2 * sizeOf value + 1
decreasing_by all_goals simp_wf <;> omega

theorem analyze_elems_extends (xs : List JVal) (cls : String) (classes : Classes) :
    ExtendsC classes (analyze_elems xs cls classes) := by
  match xs with
  | [] =>
    rw [analyze_elems.eq_def]
    exact ExtendsC.rfl classes
  | .obj kvs :: rest =>
    rw [analyze_elems.eq_def]
    exact (analyze_object_extends kvs cls classes).trans
      (analyze_elems_extends rest cls _)
  | .null :: rest => rw [analyze_elems.eq_def]; exact analyze_elems_extends rest cls classes
  | .bool b :: rest => rw [analyze_elems.eq_def]; exact analyze_elems_extends rest cls classes
  | .int n :: rest => rw [analyze_elems.eq_def]; exact analyze_elems_extends rest cls classes
  | .float :: rest => rw [analyze_elems.eq_def]; exact analyze_elems_extends rest cls classes
  | .str s :: rest => rw [analyze_elems.eq_def]; exact analyze_elems_extends rest cls classes
  | .arr ys :: rest => rw [analyze_elems.eq_def]; exact analyze_elems_extends rest cls classes
termination_by 2 * sizeOf xs + 1
decreasing_by all_goals simp_wf <;> omega

end

/-! ### Coverage: every visited object's keys end up in its class -/

theorem hasField_setField_self (classes : Classes) (cls f : String) (i : FieldInfo)
    (h : (lookupKey classes cls).isSome) :
    hasField (setField classes cls f i) cls f = true := by
  obtain ⟨m, hm⟩ := Option.isSome_iff_exists.mp h
  unfold hasField
  rw [lookupKey_setField, if_pos rfl, hm]
  simp [lookupKey_upsert]

theorem analyze_fields_covers (kvs : List (String × JVal)) (cls : String)
    (classes : Classes) (hcls : (lookupKey classes cls).isSome)
    (k : String) (v : JVal) (hmem : (k, v) ∈ kvs) :
    hasField (analyze_fields kvs cls classes) cls (to_camel_case k) = true := by
  revert hmem
  induction kvs generalizing classes with
  | nil => intro hmem; simp at hmem
  | cons p rest ih =>
    intro hmem
    obtain ⟨key, value⟩ := p
    rw [analyze_fields]
    rcases List.mem_cons.mp hmem with heq | hmem2
    · injection heq with h1 h2
      subst h1
      subst h2
      exact ((analyze_value_extends k v _).trans
        (analyze_fields_extends rest cls _)).2 _ _
        (hasField_setField_self classes cls (to_camel_case k) _ hcls)
    · exact ih _ ((analyze_value_extends key value _).1 _
        ((setField_extends classes cls (to_camel_case key)
          ⟨get_java_type value key, key⟩).1 _ hcls)) hmem2

theorem analyze_object_covers (kvs : List (String × JVal)) (cls : String)
    (classes : Classes) (k : String) (v : JVal) (hmem : (k, v) ∈ kvs) :
    hasField (analyze_object kvs cls classes) cls (to_camel_case k) = true := by
  rw [analyze_object]
  apply analyze_fields_covers _ _ _ _ _ _ hmem
  rw [lookupKey_ensureClass, if_pos rfl]
  simp

theorem analyze_elems_covers (xs : List JVal) (cls : String) (classes : Classes)
    (ekvs : List (String × JVal)) (he : JVal.obj ekvs ∈ xs)
    (k : String) (v : JVal) (hkv : (k, v) ∈ ekvs) :
    hasField (analyze_elems xs cls classes) cls (to_camel_case k) = true := by
  revert he
  induction xs generalizing classes with
  | nil => intro he; simp at he
  | cons x rest ih =>
    intro he
    rcases List.mem_cons.mp he with heq | he2
    · rw [heq.symm]
      rw [analyze_elems.eq_def]
      simp only []
      exact (analyze_elems_extends rest cls _).2 _ _
        (analyze_object_covers ekvs cls classes k v hkv)
    · cases x with
      | obj kvs2 =>
        rw [analyze_elems.eq_def]
        simp only []
        exact ih _ he2
      | null => rw [analyze_elems.eq_def]; simp only []; exact ih _ he2
      | bool b => rw [analyze_elems.eq_def]; simp only []; exact ih _ he2
      | int n => rw [analyze_elems.eq_def]; simp only []; exact ih _ he2
      | float => rw [analyze_elems.eq_def]; simp only []; exact ih _ he2
      | str s => rw [analyze_elems.eq_def]; simp only []; exact ih _ he2
      | arr ys => rw [analyze_elems.eq_def]; simp only []; exact ih _ he2

theorem analyze_fields_arr_covers (kvs : List (String × JVal)) (cls : String)
    (classes : Classes) (key : String) (xs : List JVal)
    (hmem : (key, JVal.arr xs) ∈ kvs)
    (fkvs : List (String × JVal)) (hfirst : xs.head? = some (JVal.obj fkvs))
    (ekvs : List (String × JVal)) (he : JVal.obj ekvs ∈ xs)
    (k : String) (v : JVal) (hkv : (k, v) ∈ ekvs) :
    hasField (analyze_fields kvs cls classes)
      (to_pascal_case (rstrip_s key)) (to_camel_case k) = true := by
  revert hmem
  induction kvs generalizing classes with
  | nil => intro hmem; simp at hmem
  | cons p rest ih =>
    intro hmem
    obtain ⟨key0, value0⟩ := p
    rw [analyze_fields]
    rcases List.mem_cons.mp hmem with heq | hmem2
    · injection heq with h1 h2
      subst h1
      subst h2
      cases xs with
      | nil => simp at hfirst
      | cons x0 restArr =>
        have hx0 : x0 = JVal.obj fkvs := by simpa using hfirst
        subst hx0
        rw [analyze_value.eq_def]
        simp only []
        apply (analyze_fields_extends rest cls _).2
        rcases List.mem_cons.mp he with heq2 | he2
        · injection heq2 with h3
          subst h3
          exact (analyze_elems_extends restArr _ _).2 _ _
            (analyze_object_covers ekvs _ _ k v hkv)
        · exact analyze_elems_covers restArr _ _ ekvs he2 k v hkv
    · exact ih _ hmem2

theorem lookupKey_analyze_object_self (kvs : List (String × JVal)) (cls : String)
    (classes : Classes) : (lookupKey (analyze_object kvs cls classes) cls).isSome := by
  rw [analyze_object]
  apply (analyze_fields_extends kvs cls _).1
  rw [lookupKey_ensureClass, if_pos rfl]
  rfl

theorem analyze_fields_arr_class (kvs : List (String × JVal)) (cls : String)
    (classes : Classes) (key : String) (xs : List JVal)
    (hmem : (key, JVal.arr xs) ∈ kvs)
    (fkvs : List (String × JVal)) (hfirst : xs.head? = some (JVal.obj fkvs)) :
    (lookupKey (analyze_fields kvs cls classes)
      (to_pascal_case (rstrip_s key))).isSome := by
  revert hmem
  induction kvs generalizing classes with
  | nil => intro hmem; simp at hmem
  | cons p rest ih =>
    intro hmem
    obtain ⟨key0, value0⟩ := p
    rw [analyze_fields]
    rcases List.mem_cons.mp hmem with heq | hmem2
    · injection heq with h1 h2
      subst h1
      subst h2
      cases xs with
      | nil => simp at hfirst
      | cons x0 restArr =>
        have hx0 : x0 = JVal.obj fkvs := by simpa using hfirst
        subst hx0
        rw [analyze_value.eq_def]
        simp only []
        apply (analyze_fields_extends rest cls _).1
        apply (analyze_elems_extends restArr _ _).1
        exact lookupKey_analyze_object_self fkvs _ _
    · exact ih _ hmem2

/-! ### Claim theorems -/

/-- C1: for an input object with a field whose value is a non-empty list
of objects, the builder visits every object element of the list under
the singularized Pascal-cased key, so the class schema for that name
contains the union of the (camel-cased) field names of all elements,
not only the first element's. -/
theorem c1_array_fields_merged (kvs : List (String × JVal)) (rootCls key : String)
    (xs : List JVal) (hmem : (key, JVal.arr xs) ∈ kvs) (hne : xs ≠ [])
    (hobj : ∀ x ∈ xs, ∃ okvs, x = JVal.obj okvs)
    (ekvs : List (String × JVal)) (he : JVal.obj ekvs ∈ xs)
    (k : String) (v : JVal) (hkv : (k, v) ∈ ekvs) :
    hasField (analyze_json_structure (JVal.obj kvs) rootCls)
      (to_pascal_case (rstrip_s key)) (to_camel_case k) = true := by
  cases xs with
  | nil => exact absurd rfl hne
  | cons x0 rest =>
    obtain ⟨fkvs, hf⟩ := hobj x0 (by simp)
    subst hf
    show hasField (analyze_object kvs rootCls []) _ _ = true
    rw [analyze_object]
    exact analyze_fields_arr_covers kvs rootCls _ key _ hmem fkvs (by simp) ekvs he k v hkv

/-- Witness for C1: `{"items": [{"a": 1}, {"b": 2}]}` yields a class
`Item` containing both `a` and `b`. -/
theorem c1_array_fields_merged_witness :
    hasField
      (analyze_json_structure
        (JVal.obj [("items", JVal.arr [JVal.obj [("a", JVal.int 1)], JVal.obj [("b", JVal.int 2)]])])
        "Root") "Item" "a" = true ∧
    hasField
      (analyze_json_structure
        (JVal.obj [("items", JVal.arr [JVal.obj [("a", JVal.int 1)], JVal.obj [("b", JVal.int 2)]])])
        "Root") "Item" "b" = true := by
  have hp : to_pascal_case (rstrip_s "items") = "Item" := by decide
  have hca : to_camel_case "a" = "a" := by decide
  have hcb : to_camel_case "b" = "b" := by decide
  constructor
  · have := c1_array_fields_merged
      [("items", JVal.arr [JVal.obj [("a", JVal.int 1)], JVal.obj [("b", JVal.int 2)]])]
      "Root" "items" [JVal.obj [("a", JVal.int 1)], JVal.obj [("b", JVal.int 2)]]
      (by simp) (by simp) (by simp) [("a", JVal.int 1)] (by simp) "a" (JVal.int 1) (by simp)
    rwa [hp, hca] at this
  · have := c1_array_fields_merged
      [("items", JVal.arr [JVal.obj [("a", JVal.int 1)], JVal.obj [("b", JVal.int 2)]])]
      "Root" "items" [JVal.obj [("a", JVal.int 1)], JVal.obj [("b", JVal.int 2)]]
      (by simp) (by simp) (by simp) [("b", JVal.int 2)] (by simp) "b" (JVal.int 2) (by simp)
    rwa [hp, hcb] at this

/-- C9: singularization strips ALL trailing `'s'` characters (so
`"address"` gives class `Addre` and `"boss"` gives `Bo`), and the same
stripped name is used both inside the `List<...>` element type and as
the class under which the list's object elements are visited. -/
theorem c9_rstrip_all_trailing_s :
    (∀ s : String, rstrip_s (s ++ "s") = rstrip_s s) ∧
    to_pascal_case (rstrip_s "address") = "Addre" ∧
    to_pascal_case (rstrip_s "boss") = "Bo" ∧
    (∀ (key : String) (fkvs : List (String × JVal)) (restArr : List JVal),
      get_java_type (JVal.arr (JVal.obj fkvs :: restArr)) key =
        JavaType.List (JavaType.ClassRef (to_pascal_case (rstrip_s key)))) ∧
    (∀ (kvs : List (String × JVal)) (cls : String) (classes : Classes)
      (key : String) (fkvs : List (String × JVal)) (restArr : List JVal),
      (key, JVal.arr (JVal.obj fkvs :: restArr)) ∈ kvs →
      (lookupKey (analyze_object kvs cls classes)
        (to_pascal_case (rstrip_s key))).isSome = true) := by
  refine ⟨?_, by decide, by decide, ?_, ?_⟩
  · intro s
    unfold rstrip_s
    have : (s ++ "s").data = s.data ++ ['s'] := String.data_append s "s"
    rw [this]
    simp [List.dropWhile]
  · intro key fkvs restArr
    rfl
  · intro kvs cls classes key fkvs restArr hmem
    rw [analyze_object]
    exact analyze_fields_arr_class kvs cls _ key _ hmem fkvs (by simp)

/-- Witness for C9: instantiate the universally quantified parts at
concrete inputs and discharge the membership hypothesis. -/
theorem c9_rstrip_all_trailing_s_witness :
    rstrip_s ("addres" ++ "s") = rstrip_s "addres" ∧
    (lookupKey
      (analyze_object [("address", JVal.arr [JVal.obj [("city", JVal.str "NY")]])] "Root" [])
      "Addre").isSome = true := by
  constructor
  · exact c9_rstrip_all_trailing_s.1 "addres"
  · have := c9_rstrip_all_trailing_s.2.2.2.2
      [("address", JVal.arr [JVal.obj [("city", JVal.str "NY")]])] "Root" []
      "address" [("city", JVal.str "NY")] [] (by simp)
    have hp : to_pascal_case (rstrip_s "address") = "Addre" := by decide
    rwa [hp] at this

/-- C10: a root value that is neither a dict nor a non-empty list (a
scalar, `null`, or the empty list) yields the empty class mapping, with
no entry created for the root class name and no error. -/
theorem c10_scalar_root_empty (cls s : String) (b : Bool) (n : Int) :
    analyze_json_structure JVal.null cls = [] ∧
    analyze_json_structure (JVal.bool b) cls = [] ∧
    analyze_json_structure (JVal.int n) cls = [] ∧
    analyze_json_structure JVal.float cls = [] ∧
    analyze_json_structure (JVal.str s) cls = [] ∧
    analyze_json_structure (JVal.arr []) cls = [] :=
  ⟨rfl, rfl, rfl, rfl, rfl, rfl⟩

/-- Counterexample for C5: the source's dict branch has no emptiness
check, so an empty object infers as a class reference, not as the
`Primitive(string)` fallback the claim asserts. -/
theorem c5_empty_object_counterexample :
    get_java_type (JVal.obj []) "addr" = JavaType.ClassRef "Addr" ∧
    ¬ get_java_type (JVal.obj []) "addr" = JavaType.String := by
  exact ⟨rfl, by decide⟩

/-- C5 (amended): the object rule applies to every dict, empty or not:
`infer` returns `ObjectRef(pascalCase(fieldNameHint))` for every object
value; an empty object does not fall through to the string fallback. -/
theorem c5_object_rule_all_objects (kvs : List (String × JVal)) (hint : String) :
    get_java_type (JVal.obj kvs) hint = JavaType.ClassRef (to_pascal_case hint) := rfl

/-- Counterexample for C6: the recursive call for a non-object first
element passes the DEFAULT empty field-name hint, not the same hint, so
for a nested list of objects the element class name degenerates to the
empty string instead of the singularized hint. -/
theorem c6_nested_list_counterexample :
    ¬ get_java_type (JVal.arr [JVal.arr [JVal.obj [("a", JVal.int 1)]]]) "items" =
        JavaType.List (get_java_type (JVal.arr [JVal.obj [("a", JVal.int 1)]]) "items") := by
  decide

/-- C6 (amended): for a non-empty list whose first element is not an
object, `infer(list, hint) = ListOf(infer(firstElement, ""))` — the
recursion uses the empty (default) hint rather than the caller's hint —
and elements after the first do not affect the result. -/
theorem c6_first_element_empty_hint (first : JVal) (rest : List JVal) (hint : String)
    (hnobj : ∀ okvs, ¬ first = JVal.obj okvs) :
    get_java_type (JVal.arr (first :: rest)) hint =
      JavaType.List (get_java_type first "") := by
  cases first with
  | obj okvs => exact absurd rfl (hnobj okvs)
  | null => rfl
  | bool b => rfl
  | int n => rfl
  | float => rfl
  | str s => rfl
  | arr ys => rfl

/-- Witness for C6 (amended): a primitive list, with a second element of
a different shape that is ignored. -/
theorem c6_first_element_empty_hint_witness :
    get_java_type (JVal.arr [JVal.int 3, JVal.str "x"]) "xs" =
      JavaType.List (get_java_type (JVal.int 3) "") :=
  c6_first_element_empty_hint (JVal.int 3) [JVal.str "x"] "xs"
    (fun okvs h => JVal.noConfusion h)

/-- C8: the inferencer is total — `null` maps to `Primitive(string)` and
every JSON value with every hint maps to exactly one type descriptor,
never to an error. -/
theorem c8_inferencer_total :
    (∀ hint : String, get_java_type JVal.null hint = JavaType.String) ∧
    (∀ (v : JVal) (hint : String), ∃! t : JavaType, get_java_type v hint = t) :=
  ⟨fun _ => rfl, fun v hint => ⟨get_java_type v hint, rfl, fun _ ht => ht.symm⟩⟩

theorem analyze_elems_eq_foldl (xs : List JVal) (cls : String) (classes : Classes) :
    analyze_elems xs cls classes =
      xs.foldl
        (fun acc x =>
          match x with
          | JVal.obj okvs => analyze_object okvs cls acc
          | _ => acc) classes := by
  induction xs generalizing classes with
  | nil => rw [analyze_elems.eq_def]; rfl
  | cons x rest ih =>
    cases x with
    | obj kvs => rw [analyze_elems.eq_def]; simp only []; rw [ih]; rfl
    | null => rw [analyze_elems.eq_def]; simp only []; rw [ih]; rfl
    | bool b => rw [analyze_elems.eq_def]; simp only []; rw [ih]; rfl
    | int n => rw [analyze_elems.eq_def]; simp only []; rw [ih]; rfl
    | float => rw [analyze_elems.eq_def]; simp only []; rw [ih]; rfl
    | str s => rw [analyze_elems.eq_def]; simp only []; rw [ih]; rfl
    | arr ys => rw [analyze_elems.eq_def]; simp only []; rw [ih]; rfl

/-- C7: a dict root is visited directly under the root class name; a
non-empty all-object list root has every element visited under the root
class name (a uniform fold over the whole list), and the root list
itself produces no wrapper class — in particular a singleton list root
produces exactly the schema of its element. -/
theorem c7_root_handling :
    (∀ (kvs : List (String × JVal)) (cls : String),
      analyze_json_structure (JVal.obj kvs) cls = analyze_object kvs cls []) ∧
    (∀ (xs : List JVal) (cls : String), xs ≠ [] →
      (∀ x ∈ xs, ∃ okvs, x = JVal.obj okvs) →
      analyze_json_structure (JVal.arr xs) cls =
        xs.foldl
          (fun acc x =>
            match x with
            | JVal.obj okvs => analyze_object okvs cls acc
            | _ => acc) []) ∧
    (∀ (kvs : List (String × JVal)) (cls : String),
      analyze_json_structure (JVal.arr [JVal.obj kvs]) cls =
        analyze_json_structure (JVal.obj kvs) cls) := by
  refine ⟨fun kvs cls => rfl, ?_, ?_⟩
  · intro xs cls hne hobj
    cases xs with
    | nil => exact absurd rfl hne
    | cons x0 rest =>
      obtain ⟨fkvs, hf⟩ := hobj x0 (by simp)
      subst hf
      show analyze_elems rest cls (analyze_object fkvs cls []) = _
      rw [analyze_elems_eq_foldl]
      rfl
  · intro kvs cls
    show analyze_elems [] cls (analyze_object kvs cls []) = analyze_object kvs cls []
    rw [analyze_elems.eq_def]

/-- Witness for C7: the list-root branch applied to a concrete
two-element list of objects. -/
theorem c7_root_handling_witness :
    analyze_json_structure (JVal.arr [JVal.obj [("a", JVal.int 1)], JVal.obj [("b", JVal.int 2)]])
        "Root" =
      [JVal.obj [("a", JVal.int 1)], JVal.obj [("b", JVal.int 2)]].foldl
        (fun acc x =>
          match x with
          | JVal.obj okvs => analyze_object okvs "Root" acc
          | _ => acc) [] :=
  c7_root_handling.2.1 [JVal.obj [("a", JVal.int 1)], JVal.obj [("b", JVal.int 2)]] "Root"
    (by simp) (by simp)

/-! ### Field-name uniqueness (dict semantics) and last-write-wins -/

theorem upsert_cons_self {α : Type} (rest : List (String × α)) (k : String) (v0 v : α) :
    upsert ((k, v0) :: rest) k v = (k, v) :: rest := by
  simp [upsert]

theorem upsert_cons_ne {α : Type} (rest : List (String × α)) (k0 k : String)
    (v0 v : α) (h : ¬ k0 = k) :
    upsert ((k0, v0) :: rest) k v = (k0, v0) :: upsert rest k v := by
  simp [upsert, h]

theorem setField_cons_self (rest : Classes) (cls : String) (m0 : FieldMap)
    (f : String) (i : FieldInfo) :
    setField ((cls, m0) :: rest) cls f i = (cls, upsert m0 f i) :: rest := by
  simp [setField]

theorem setField_cons_ne (rest : Classes) (c0 cls : String) (m0 : FieldMap)
    (f : String) (i : FieldInfo) (h : ¬ c0 = cls) :
    setField ((c0, m0) :: rest) cls f i = (c0, m0) :: setField rest cls f i := by
  simp [setField, h]

/-- Well-formedness of the accumulator: class names are distinct and,
within each class, field names are distinct — the invariant Python
dicts provide for free. -/
def WFClasses (classes : Classes) : Prop :=
  (classes.map Prod.fst).Nodup ∧ ∀ p ∈ classes, (p.2.map Prod.fst).Nodup

theorem mem_keys_upsert {α : Type} (m : List (String × α)) (k j : String) (v : α) :
    j ∈ (upsert m k v).map Prod.fst ↔ j ∈ m.map Prod.fst ∨ j = k := by
  induction m with
  | nil => simp [upsert]
  | cons p rest ih =>
    obtain ⟨k0, v0⟩ := p
    by_cases hk : k0 = k
    · subst hk
      rw [upsert_cons_self]
      simp only [List.map_cons, List.mem_cons]
      tauto
    · rw [upsert_cons_ne rest k0 k v0 v hk]
      simp only [List.map_cons, List.mem_cons, ih]
      tauto

theorem nodup_keys_upsert {α : Type} (m : List (String × α)) (k : String) (v : α)
    (h : (m.map Prod.fst).Nodup) : ((upsert m k v).map Prod.fst).Nodup := by
  induction m with
  | nil => simp [upsert]
  | cons p rest ih =>
    obtain ⟨k0, v0⟩ := p
    simp only [List.map_cons, List.nodup_cons] at h
    by_cases hk : k0 = k
    · subst hk
      rw [upsert_cons_self]
      simp only [List.map_cons, List.nodup_cons]
      exact h
    · rw [upsert_cons_ne rest k0 k v0 v hk]
      simp only [List.map_cons, List.nodup_cons]
      refine ⟨?_, ih h.2⟩
      rw [mem_keys_upsert]
      rintro (hm | hm)
      · exact h.1 hm
      · exact hk hm

theorem map_fst_setField (classes : Classes) (cls f : String) (i : FieldInfo) :
    (setField classes cls f i).map Prod.fst = classes.map Prod.fst := by
  induction classes with
  | nil => rfl
  | cons p rest ih =>
    obtain ⟨c0, m0⟩ := p
    by_cases h0 : c0 = cls
    · subst h0
      rw [setField_cons_self]
      simp
    · rw [setField_cons_ne rest c0 cls m0 f i h0]
      simp [ih]

theorem mem_setField (classes : Classes) (cls f : String) (i : FieldInfo)
    (p : String × FieldMap) (hp : p ∈ setField classes cls f i) :
    p ∈ classes ∨ ∃ m, (p.1, m) ∈ classes ∧ p.2 = upsert m f i := by
  induction classes with
  | nil => simp [setField] at hp
  | cons q rest ih =>
    obtain ⟨c0, m0⟩ := q
    by_cases h0 : c0 = cls
    · subst h0
      rw [setField_cons_self] at hp
      rcases List.mem_cons.mp hp with hp | hp
      · subst hp
        exact Or.inr ⟨m0, by simp⟩
      · exact Or.inl (List.mem_cons_of_mem _ hp)
    · rw [setField_cons_ne rest c0 cls m0 f i h0] at hp
      rcases List.mem_cons.mp hp with hp | hp
      · exact Or.inl (by simp [hp])
      · rcases ih hp with h | ⟨m, hm, he⟩
        · exact Or.inl (List.mem_cons_of_mem _ h)
        · exact Or.inr ⟨m, List.mem_cons_of_mem _ hm, he⟩

theorem setField_wf (classes : Classes) (cls f : String) (i : FieldInfo)
    (h : WFClasses classes) : WFClasses (setField classes cls f i) := by
  constructor
  · rw [map_fst_setField]
    exact h.1
  · intro p hp
    rcases mem_setField classes cls f i p hp with hm | ⟨m, hm, he⟩
    · exact h.2 p hm
    · rw [he]
      exact nodup_keys_upsert m f i (h.2 (p.1, m) hm)

theorem lookupKey_isSome_iff_mem {α : Type} (m : List (String × α)) (k : String) :
    (lookupKey m k).isSome ↔ k ∈ m.map Prod.fst := by
  induction m with
  | nil => simp [lookupKey]
  | cons p rest ih =>
    obtain ⟨k0, v0⟩ := p
    by_cases hk : k0 = k
    · subst hk
      simp [lookupKey]
    · have hk2 : ¬ k = k0 := fun hh => hk hh.symm
      simp [lookupKey, hk, hk2, ih]

theorem ensureClass_wf (classes : Classes) (cls : String) (h : WFClasses classes) :
    WFClasses (ensureClass classes cls) := by
  unfold ensureClass
  by_cases hs : (lookupKey classes cls).isSome
  · simpa [hs] using h
  · simp only [hs, Bool.false_eq_true, if_false]
    constructor
    · rw [List.map_append, List.nodup_append]
      refine ⟨h.1, by simp, ?_⟩
      intro a ha hb
      simp only [List.map_cons, List.map_nil, List.mem_singleton] at hb
      subst hb
      rw [← lookupKey_isSome_iff_mem] at ha
      exact hs ha
    · intro p hp
      rcases List.mem_append.mp hp with hm | hm
      · exact h.2 p hm
      · simp only [List.mem_singleton] at hm
        subst hm
        simp

mutual

theorem analyze_object_wf (kvs : List (String × JVal)) (cls : String)
    (classes : Classes) (h : WFClasses classes) :
    WFClasses (analyze_object kvs cls classes) := by
  rw [analyze_object]
  exact analyze_fields_wf kvs cls _ (ensureClass_wf classes cls h)
termination_by 2 * sizeOf kvs + 2
decreasing_by all_goals simp_wf <;> omega

theorem analyze_fields_wf (kvs : List (String × JVal)) (cls : String)
    (classes : Classes) (h : WFClasses classes) :
    WFClasses (analyze_fields kvs cls classes) := by
  match kvs with
  | [] =>
    rw [analyze_fields]
    exact h
  | (key, value) :: rest =>
    rw [analyze_fields]
    exact analyze_fields_wf rest cls _
      (analyze_value_wf key value _ (setField_wf classes cls _ _ h))
termination_by 2 * sizeOf kvs + 1
decreasing_by all_goals simp_wf <;> omega

theorem analyze_value_wf (key : String) (value : JVal) (classes : Classes)
    (h : WFClasses classes) : WFClasses (analyze_value key value classes) := by
  match value with
  | .obj nkvs =>
    rw [analyze_value.eq_def]
    by_cases he : nkvs.isEmpty
    · simpa [he] using h
    · simp only [he, Bool.false_eq_true, if_false]
      exact analyze_object_wf nkvs (to_pascal_case key) classes h
  | .arr (.obj fkvs :: restArr) =>
    rw [analyze_value.eq_def]
    exact analyze_elems_wf restArr _ _ (analyze_object_wf fkvs _ classes h)
  | .null => rw [analyze_value.eq_def]; exact h
  | .bool b => rw [analyze_value.eq_def]; exact h
  | .int n => rw [analyze_value.eq_def]; exact h
  | .float => rw [analyze_value.eq_def]; exact h
  | .str s => rw [analyze_value.eq_def]; exact h
  | .arr [] => rw [analyze_value.eq_def]; exact h
  | .arr (.null :: t) => rw [analyze_value.eq_def]; exact h
  | .arr (.bool b :: t) => rw [analyze_value.eq_def]; exact h
  | .arr (.int n :: t) => rw [analyze_value.eq_def]; exact h
  | .arr (.float :: t) => rw [analyze_value.eq_def]; exact h
  | .arr (.str s :: t) => rw [analyze_value.eq_def]; exact h
  | .arr (.arr ys :: t) => rw [analyze_value.eq_def]; exact h
termination_by 2 * sizeOf value + 1
decreasing_by all_goals simp_wf <;> omega

theorem analyze_elems_wf (xs : List JVal) (cls : String) (classes : Classes)
    (h : WFClasses classes) : WFClasses (analyze_elems xs cls classes) := by
  match xs with
  | [] =>
    rw [analyze_elems.eq_def]
    exact h
  | .obj kvs :: rest =>
    rw [analyze_elems.eq_def]
    exact analyze_elems_wf rest cls _ (analyze_object_wf kvs cls classes h)
  | .null :: rest => rw [analyze_elems.eq_def]; exact analyze_elems_wf rest cls classes h
  | .bool b :: rest => rw [analyze_elems.eq_def]; exact analyze_elems_wf rest cls classes h
  | .int n :: rest => rw [analyze_elems.eq_def]; exact analyze_elems_wf rest cls classes h
  | .float :: rest => rw [analyze_elems.eq_def]; exact analyze_elems_wf rest cls classes h
  | .str s :: rest => rw [analyze_elems.eq_def]; exact analyze_elems_wf rest cls classes h
  | .arr ys :: rest => rw [analyze_elems.eq_def]; exact analyze_elems_wf rest cls classes h
termination_by 2 * sizeOf xs + 1
decreasing_by all_goals simp_wf <;> omega

end

/-- Look up the descriptor of field `f` of class `c`. -/
def lookupField (classes : Classes) (c f : String) : Option FieldInfo :=
  (lookupKey classes c).bind (fun m => lookupKey m f)

theorem analyze_json_structure_wf (root : JVal) (cls : String) :
    WFClasses (analyze_json_structure root cls) := by
  have hnil : WFClasses ([] : Classes) := ⟨List.nodup_nil, by simp⟩
  cases root with
  | obj kvs => exact analyze_object_wf kvs cls [] hnil
  | arr xs =>
    cases xs with
    | nil => exact hnil
    | cons x0 rest =>
      cases x0 with
      | obj fkvs => exact analyze_elems_wf rest cls _ (analyze_object_wf fkvs cls [] hnil)
      | null => exact hnil
      | bool b => exact hnil
      | int n => exact hnil
      | float => exact hnil
      | str s => exact hnil
      | arr ys => exact hnil
  | null => exact hnil
  | bool b => exact hnil
  | int n => exact hnil
  | float => exact hnil
  | str s => exact hnil

/-- C4: the builder keeps exactly one descriptor per field name within a
class (the field dict's keys are always distinct); each dict write is
last-wins (`upsert` makes the new value the one found); and in the
concrete two-element-array case `{"items": [{"x": "5"}, {"x": 5}]}` the
final type of `Item.x` is the one inferred from the last-visited
occurrence (`Integer`), even though the first occurrence inferred
`String`. -/
theorem c4_unique_fields_last_wins :
    (∀ (root : JVal) (cls : String) (p : String × FieldMap),
      p ∈ analyze_json_structure root cls → (p.2.map Prod.fst).Nodup) ∧
    (∀ (m : FieldMap) (f : String) (i : FieldInfo),
      lookupKey (upsert m f i) f = some i) ∧
    (lookupField
      (analyze_json_structure
        (JVal.obj
          [("items", JVal.arr [JVal.obj [("x", JVal.str "5")], JVal.obj [("x", JVal.int 5)]])])
        "Root") "Item" "x" = some ⟨JavaType.Integer, "x"⟩ ∧
     get_java_type (JVal.str "5") "x" = JavaType.String) := by
  refine ⟨?_, ?_, ?_, by decide⟩
  · intro root cls p hp
    exact (analyze_json_structure_wf root cls).2 p hp
  · intro m f i
    rw [lookupKey_upsert, if_pos rfl]
  · simp [analyze_json_structure, analyze_object, analyze_fields, analyze_value,
      analyze_elems, ensureClass, setField, upsert, lookupKey, lookupField]
    decide

/-- Witness for C4: the uniqueness invariant applied to a concrete run. -/
theorem c4_unique_fields_last_wins_witness :
    (([("a", FieldInfo.mk JavaType.Integer "a")] : FieldMap).map Prod.fst).Nodup :=
  c4_unique_fields_last_wins.1 (JVal.obj [("a", JVal.int 1)]) "Root"
    ("Root", [("a", FieldInfo.mk JavaType.Integer "a")])
    (by
      simp [analyze_json_structure, analyze_object, analyze_fields, analyze_value,
        analyze_elems, ensureClass, setField, upsert, lookupKey]
      decide)

/-! ### Temporal grammar facts -/

theorem digit_ne_plus (c : Char) (h : c.isDigit = true) : ¬ c = '+' := by
  intro he
  subst he
  exact absurd h (by decide)

theorem digit_ne_minus (c : Char) (h : c.isDigit = true) : ¬ c = '-' := by
  intro he
  subst he
  exact absurd h (by decide)

theorem digit_ne_colon (c : Char) (h : c.isDigit = true) : ¬ c = ':' := by
  intro he
  subst he
  exact absurd h (by decide)

theorem digit_ne_dot (c : Char) (h : c.isDigit = true) : ¬ c = '.' := by
  intro he
  subst he
  exact absurd h (by decide)

theorem splitTz_cons_not_sign (c : Char) (l : List Char) (h1 : ¬ c = '+')
    (h2 : ¬ c = '-') : splitTz (c :: l) = (c :: (splitTz l).1, (splitTz l).2) := by
  simp [splitTz, h1, h2]

theorem splitTz_cons_minus (l : List Char) : splitTz ('-' :: l) = ([], '-' :: l) := by
  simp [splitTz]

theorem splitTz_date_shape (y1 y2 y3 y4 : Char) (rest : List Char)
    (h1 : y1.isDigit = true) (h2 : y2.isDigit = true) (h3 : y3.isDigit = true)
    (h4 : y4.isDigit = true) :
    splitTz (y1 :: y2 :: y3 :: y4 :: '-' :: rest) = ([y1, y2, y3, y4], '-' :: rest) := by
  rw [splitTz_cons_not_sign y1 _ (digit_ne_plus y1 h1) (digit_ne_minus y1 h1)]
  rw [splitTz_cons_not_sign y2 _ (digit_ne_plus y2 h2) (digit_ne_minus y2 h2)]
  rw [splitTz_cons_not_sign y3 _ (digit_ne_plus y3 h3) (digit_ne_minus y3 h3)]
  rw [splitTz_cons_not_sign y4 _ (digit_ne_plus y4 h4) (digit_ne_minus y4 h4)]
  rw [splitTz_cons_minus]

theorem parse_hh_four_digits_none (y1 y2 y3 y4 : Char) (h3 : y3.isDigit = true) :
    parse_hh_mm_ss_ff [y1, y2, y3, y4] = none := by
  unfold parse_hh_mm_ss_ff
  by_cases hd : (y1.isDigit && y2.isDigit) = true
  · have hp : parse2 [y1, y2, y3, y4] = some (digitVal y1 * 10 + digitVal y2, [y3, y4]) := by
      simp [parse2, hd]
    rw [hp]
    simp [digit_ne_dot y3 h3, digit_ne_colon y3 h3]
  · have hp : parse2 [y1, y2, y3, y4] = none := by
      simp only [parse2]
      simp [hd]
    rw [hp]

theorem iso_time_part_date_prefix_false (y1 y2 y3 y4 : Char) (rest : List Char)
    (h1 : y1.isDigit = true) (h2 : y2.isDigit = true) (h3 : y3.isDigit = true)
    (h4 : y4.isDigit = true) :
    iso_time_part (y1 :: y2 :: y3 :: y4 :: '-' :: rest) = false := by
  unfold iso_time_part
  rw [splitTz_date_shape y1 y2 y3 y4 rest h1 h2 h3 h4]
  rw [parse_hh_four_digits_none y1 y2 y3 y4 h3]

theorem parse_isoformat_date_shape (l : List Char) (y m d : Nat)
    (h : parse_isoformat_date l = some (y, m, d)) :
    ∃ y1 y2 y3 y4 m1 m2 d1 d2,
      l = [y1, y2, y3, y4, '-', m1, m2, '-', d1, d2] ∧
      y1.isDigit = true ∧ y2.isDigit = true ∧ y3.isDigit = true ∧ y4.isDigit = true := by
  rw [parse_isoformat_date.eq_def] at h
  split at h
  · rename_i y1 y2 y3 y4 s1 m1 m2 s2 d1 d2
    split at h
    · rename_i hcond
      simp only [Bool.and_eq_true, beq_iff_eq] at hcond
      obtain ⟨⟨⟨⟨⟨⟨⟨⟨⟨hd1, hd2⟩, hd3⟩, hd4⟩, hs1⟩, hm1⟩, hm2⟩, hs2⟩, hdd1⟩, hdd2⟩ := hcond
      subst hs1
      subst hs2
      exact ⟨y1, y2, y3, y4, m1, m2, d1, d2, rfl, hd1, hd2, hd3, hd4⟩
    · exact absurd h (by simp)
  · exact absurd h (by simp)

theorem iso_date_iso_time_disjoint (l : List Char) (h : iso_date l = true) :
    iso_time_part l = false := by
  unfold iso_date at h
  cases hp : parse_isoformat_date l with
  | none => rw [hp] at h; exact absurd h (by simp)
  | some ymd =>
    obtain ⟨y, m, d⟩ := ymd
    obtain ⟨y1, y2, y3, y4, m1, m2, d1, d2, hl, hd1, hd2, hd3, hd4⟩ :=
      parse_isoformat_date_shape l y m d hp
    subst hl
    exact iso_time_part_date_prefix_false y1 y2 y3 y4 _ hd1 hd2 hd3 hd4

theorem iso_date_length (l : List Char) (h : iso_date l = true) : l.length = 10 := by
  unfold iso_date at h
  cases hp : parse_isoformat_date l with
  | none => rw [hp] at h; exact absurd h (by simp)
  | some ymd =>
    obtain ⟨y, m, d⟩ := ymd
    obtain ⟨y1, y2, y3, y4, m1, m2, d1, d2, hl, _, _, _, _⟩ :=
      parse_isoformat_date_shape l y m d hp
    subst hl
    rfl

theorem iso_datetime_long_not_time (l : List Char) (h : iso_datetime l = true)
    (hlen : 10 < l.length) : iso_time_part l = false := by
  unfold iso_datetime at h
  cases hp : parse_isoformat_date (l.take 10) with
  | none => rw [hp] at h; exact absurd h (by simp)
  | some ymd =>
    obtain ⟨y, m, d⟩ := ymd
    obtain ⟨y1, y2, y3, y4, m1, m2, d1, d2, hl, hd1, hd2, hd3, hd4⟩ :=
      parse_isoformat_date_shape (l.take 10) y m d hp
    have hdecomp : l = l.take 10 ++ l.drop 10 := (List.take_append_drop 10 l).symm
    rw [hl] at hdecomp
    rw [hdecomp]
    exact iso_time_part_date_prefix_false y1 y2 y3 y4 _ hd1 hd2 hd3 hd4

theorem iso_datetime_long_not_date (l : List Char) (hlen : 10 < l.length) :
    iso_date l = false := by
  cases hd : iso_date l with
  | false => rfl
  | true =>
    have := iso_date_length l hd
    omega

/-- C2: the temporal rules apply in the order date, time, date-time,
each before the plain-string rule: the sample date, time and date-time
strings infer as `LocalDate`, `LocalTime` and `LocalDateTime`
respectively, `"hello"` infers as `String`; moreover every string the
time grammar accepts infers as `LocalTime` (never as a date), and every
string the date-time grammar accepts that is longer than a bare date
infers as `LocalDateTime` (never as a bare date). -/
theorem c2_temporal_precedence :
    (∀ hint : String, get_java_type (JVal.str "2024-01-15") hint = JavaType.LocalDate) ∧
    (∀ hint : String, get_java_type (JVal.str "13:45:00") hint = JavaType.LocalTime) ∧
    (∀ hint : String,
      get_java_type (JVal.str "2024-01-15T13:45:00") hint = JavaType.LocalDateTime) ∧
    (∀ hint : String, get_java_type (JVal.str "hello") hint = JavaType.String) ∧
    (∀ (s : String) (hint : String), time_valid (JVal.str s) = true →
      get_java_type (JVal.str s) hint = JavaType.LocalTime) ∧
    (∀ (s : String) (hint : String), datetime_valid (JVal.str s) = true →
      10 < s.length → get_java_type (JVal.str s) hint = JavaType.LocalDateTime) := by
  refine ⟨fun hint => rfl, fun hint => rfl, fun hint => rfl, fun hint => rfl, ?_, ?_⟩
  · intro s hint ht
    have ht2 : iso_time_part s.data = true := ht
    have hd : iso_date s.data = false := by
      cases hd : iso_date s.data with
      | false => rfl
      | true =>
        have := iso_date_iso_time_disjoint s.data hd
        rw [ht2] at this
        exact absurd this (by simp)
    show (if iso_date s.data then JavaType.LocalDate
      else if iso_time_part s.data then JavaType.LocalTime
      else if iso_datetime s.data then JavaType.LocalDateTime
      else JavaType.String) = JavaType.LocalTime
    rw [hd]
    simp [ht2]
  · intro s hint hdt hlen
    have hdt2 : iso_datetime s.data = true := hdt
    have hlen2 : 10 < s.data.length := hlen
    have hd : iso_date s.data = false := iso_datetime_long_not_date s.data hlen2
    have ht : iso_time_part s.data = false := iso_datetime_long_not_time s.data hdt2 hlen2
    show (if iso_date s.data then JavaType.LocalDate
      else if iso_time_part s.data then JavaType.LocalTime
      else if iso_datetime s.data then JavaType.LocalDateTime
      else JavaType.String) = JavaType.LocalDateTime
    rw [hd, ht]
    simp [hdt2]

/-- Witness for C2: the universally quantified clauses applied to fresh
concrete strings, hypotheses discharged by evaluation. -/
theorem c2_temporal_precedence_witness :
    get_java_type (JVal.str "07:08:09") "w" = JavaType.LocalTime ∧
    get_java_type (JVal.str "1999-12-31T23:59:59") "w" = JavaType.LocalDateTime :=
  ⟨c2_temporal_precedence.2.2.2.2.1 "07:08:09" "w" (by decide),
   c2_temporal_precedence.2.2.2.2.2 "1999-12-31T23:59:59" "w" (by decide) (by decide)⟩

/-! ### Class-reference closure -/

/-- The class names referenced inside a type descriptor. -/
def refsOf : JavaType → List String
  | .List t => refsOf t
  | .ClassRef n => [n]
  | _ => []

/-- Every class reference occurring in any field's
type names a class that is a key of the same mapping. -/
def refsClosedB (classes : Classes) : Bool :=
  classes.all (fun p => p.2.all (fun q =>
    (refsOf q.2.type).all (fun n => (classes.map Prod.fst).contains n)))

/-- Every class reference is either a class of
the mapping or one of the pending names `S` (the names the walk is about
to create). -/
def AlmostClosed (classes : Classes) (S : List String) : Prop :=
  ∀ p ∈ classes, ∀ q ∈ p.2, ∀ n ∈ refsOf q.2.type,
    n ∈ classes.map Prod.fst ∨ n ∈ S

theorem refsClosedB_iff (classes : Classes) :
    refsClosedB classes = true ↔ AlmostClosed classes [] := by
  unfold refsClosedB AlmostClosed
  simp [List.all_eq_true]

/-- A non-empty-list, non-empty-object condition on a JSON value: every
object in it is non-empty and no array in it starts with an array. -/
def goodFirstNotArr : List JVal → Bool
  | .arr _ :: _ => false
  | _ => true

mutual

def goodVal : JVal → Bool
  | .null => true
  | .bool _ => true
  | .int _ => true
  | .float => true
  | .str _ => true
  | .arr xs => goodFirstNotArr xs && goodElemsB xs
  | .obj kvs => !kvs.isEmpty && goodFieldsB kvs
termination_by v => sizeOf v

def goodFieldsB : List (String × JVal) → Bool
  | [] => true
  | (_, v) :: rest => goodVal v && goodFieldsB rest
termination_by kvs => sizeOf kvs

def goodElemsB : List JVal → Bool
  | [] => true
  | x :: rest => goodVal x && goodElemsB rest
termination_by xs => sizeOf xs

end

theorem mem_upsert {α : Type} (m : List (String × α)) (k : String) (v : α)
    (q : String × α) (hq : q ∈ upsert m k v) : q ∈ m ∨ q = (k, v) := by
  induction m with
  | nil => simpa [upsert] using hq
  | cons p rest ih =>
    obtain ⟨k0, v0⟩ := p
    by_cases hk : k0 = k
    · subst hk
      rw [upsert_cons_self] at hq
      rcases List.mem_cons.mp hq with hq | hq
      · exact Or.inr hq
      · exact Or.inl (List.mem_cons_of_mem _ hq)
    · rw [upsert_cons_ne rest k0 k v0 v hk] at hq
      rcases List.mem_cons.mp hq with hq | hq
      · exact Or.inl (by simp [hq])
      · rcases ih hq with h | h
        · exact Or.inl (List.mem_cons_of_mem _ h)
        · exact Or.inr h

theorem almostClosed_mono (classes : Classes) (S T : List String)
    (hst : ∀ n ∈ S, n ∈ T) (h : AlmostClosed classes S) : AlmostClosed classes T := by
  intro p hp q hq n hn
  rcases h p hp q hq n hn with hc | hs
  · exact Or.inl hc
  · exact Or.inr (hst n hs)

theorem almostClosed_ensure (classes : Classes) (cls : String) (S : List String)
    (h : AlmostClosed classes (cls :: S)) : AlmostClosed (ensureClass classes cls) S := by
  unfold ensureClass
  by_cases hs : (lookupKey classes cls).isSome
  · simp only [hs, if_pos]
    have hmem : cls ∈ classes.map Prod.fst := (lookupKey_isSome_iff_mem classes cls).mp hs
    intro p hp q hq n hn
    rcases h p hp q hq n hn with hc | hcs
    · exact Or.inl hc
    · rcases List.mem_cons.mp hcs with hc | hsS
      · subst hc; exact Or.inl hmem
      · exact Or.inr hsS
  · simp only [hs, Bool.false_eq_true, if_false]
    intro p hp q hq n hn
    rcases List.mem_append.mp hp with hp2 | hp2
    · rcases h p hp2 q hq n hn with hc | hcs
      · refine Or.inl ?_
        rw [List.map_append]
        exact List.mem_append_left _ hc
      · rcases List.mem_cons.mp hcs with hc | hsS
        · subst hc
          refine Or.inl ?_
          rw [List.map_append]
          exact List.mem_append_right _ (by simp)
        · exact Or.inr hsS
    · simp only [List.mem_singleton] at hp2
      subst hp2
      simp at hq

theorem almostClosed_setField (classes : Classes) (cls f : String) (i : FieldInfo)
    (S : List String) (h : AlmostClosed classes S)
    (hi : ∀ n ∈ refsOf i.type, n ∈ classes.map Prod.fst ∨ n ∈ S) :
    AlmostClosed (setField classes cls f i) S := by
  intro p hp q hq n hn
  rw [map_fst_setField]
  rcases mem_setField classes cls f i p hp with hm | ⟨m, hm, he⟩
  · exact h p hm q hq n hn
  · rw [he] at hq
    rcases mem_upsert m f i q hq with hq2 | hq2
    · exact h (p.1, m) hm q hq2 n hn
    · subst hq2
      exact hi n hn

theorem refsOf_get_java_type_str (s : String) (hint : String) :
    refsOf (get_java_type (JVal.str s) hint) = [] := by
  show refsOf (if iso_date s.data then JavaType.LocalDate
    else if iso_time_part s.data then JavaType.LocalTime
    else if iso_datetime s.data then JavaType.LocalDateTime
    else JavaType.String) = []
  split_ifs <;> rfl

mutual

theorem analyze_object_rc (kvs : List (String × JVal)) (cls : String)
    (classes : Classes) (hg : goodFieldsB kvs = true)
    (h : AlmostClosed classes [cls]) :
    AlmostClosed (analyze_object kvs cls classes) [] := by
  rw [analyze_object]
  exact analyze_fields_rc kvs cls _ hg (almostClosed_ensure classes cls [] h)
termination_by 2 * sizeOf kvs + 2
decreasing_by all_goals simp_wf <;> omega

theorem analyze_fields_rc (kvs : List (String × JVal)) (cls : String)
    (classes : Classes) (hg : goodFieldsB kvs = true)
    (h : AlmostClosed classes []) :
    AlmostClosed (analyze_fields kvs cls classes) [] := by
  match kvs with
  | [] =>
    rw [analyze_fields]
    exact h
  | (key, value) :: rest =>
    rw [analyze_fields]
    rw [goodFieldsB, Bool.and_eq_true] at hg
    have h1 : AlmostClosed
        (setField classes cls (to_camel_case key) ⟨get_java_type value key, key⟩)
        (refsOf (get_java_type value key)) :=
      almostClosed_setField classes cls _ _ _
        (almostClosed_mono classes [] _ (by simp) h)
        (fun n hn => Or.inr hn)
    exact analyze_fields_rc rest cls _ hg.2 (analyze_value_rc key value _ hg.1 h1)
termination_by 2 * sizeOf kvs + 1
decreasing_by all_goals simp_wf <;> omega

theorem analyze_value_rc (key : String) (value : JVal) (classes : Classes)
    (hg : goodVal value = true)
    (h : AlmostClosed classes (refsOf (get_java_type value key))) :
    AlmostClosed (analyze_value key value classes) [] := by
  match value with
  | .obj nkvs =>
    rw [goodVal, Bool.and_eq_true] at hg
    rw [analyze_value.eq_def]
    by_cases he : nkvs.isEmpty
    · rw [he] at hg
      exact absurd hg.1 (by simp)
    · simp only [he, Bool.false_eq_true, if_false]
      exact analyze_object_rc nkvs (to_pascal_case key) classes hg.2 h
  | .arr (.obj fkvs :: restArr) =>
    rw [goodVal, Bool.and_eq_true] at hg
    have hg2 := hg.2
    rw [goodElemsB, Bool.and_eq_true] at hg2
    have hgf : goodFieldsB fkvs = true := by
      have hv := hg2.1
      rw [goodVal, Bool.and_eq_true] at hv
      exact hv.2
    rw [analyze_value.eq_def]
    exact analyze_elems_rc restArr (to_pascal_case (rstrip_s key)) _ hg2.2
      (analyze_object_rc fkvs _ classes hgf h)
  | .null => rw [analyze_value.eq_def]; exact h
  | .bool b => rw [analyze_value.eq_def]; exact h
  | .int n => rw [analyze_value.eq_def]; exact h
  | .float => rw [analyze_value.eq_def]; exact h
  | .str s =>
    rw [analyze_value.eq_def]
    rw [refsOf_get_java_type_str s key] at h
    exact h
  | .arr [] => rw [analyze_value.eq_def]; exact h
  | .arr (.null :: t) => rw [analyze_value.eq_def]; exact h
  | .arr (.bool b :: t) => rw [analyze_value.eq_def]; exact h
  | .arr (.int n :: t) => rw [analyze_value.eq_def]; exact h
  | .arr (.float :: t) => rw [analyze_value.eq_def]; exact h
  | .arr (.str s :: t) =>
    rw [analyze_value.eq_def]
    have hrefs : refsOf (get_java_type (JVal.arr (JVal.str s :: t)) key) = [] :=
      refsOf_get_java_type_str s ""
    rw [hrefs] at h
    exact h
  | .arr (.arr ys :: t) =>
    rw [goodVal, Bool.and_eq_true] at hg
    exact absurd hg.1 (by simp [goodFirstNotArr])
termination_by 2 * sizeOf value + 1
decreasing_by all_goals simp_wf <;> omega

theorem analyze_elems_rc (xs : List JVal) (cls : String) (classes : Classes)
    (hg : goodElemsB xs = true) (h : AlmostClosed classes []) :
    AlmostClosed (analyze_elems xs cls classes) [] := by
  match xs with
  | [] => rw [analyze_elems.eq_def]; exact h
  | .obj kvs :: rest =>
    rw [goodElemsB, Bool.and_eq_true] at hg
    have hgf : goodFieldsB kvs = true := by
      have hv := hg.1
      rw [goodVal, Bool.and_eq_true] at hv
      exact hv.2
    rw [analyze_elems.eq_def]
    exact analyze_elems_rc rest cls _ hg.2
      (analyze_object_rc kvs cls classes hgf
        (almostClosed_mono classes [] [cls] (by simp) h))
  | .null :: rest =>
    rw [goodElemsB, Bool.and_eq_true] at hg
    rw [analyze_elems.eq_def]
    exact analyze_elems_rc rest cls classes hg.2 h
  | .bool b :: rest =>
    rw [goodElemsB, Bool.and_eq_true] at hg
    rw [analyze_elems.eq_def]
    exact analyze_elems_rc rest cls classes hg.2 h
  | .int n :: rest =>
    rw [goodElemsB, Bool.and_eq_true] at hg
    rw [analyze_elems.eq_def]
    exact analyze_elems_rc rest cls classes hg.2 h
  | .float :: rest =>
    rw [goodElemsB, Bool.and_eq_true] at hg
    rw [analyze_elems.eq_def]
    exact analyze_elems_rc rest cls classes hg.2 h
  | .str s :: rest =>
    rw [goodElemsB, Bool.and_eq_true] at hg
    rw [analyze_elems.eq_def]
    exact analyze_elems_rc rest cls classes hg.2 h
  | .arr ys :: rest =>
    rw [goodElemsB, Bool.and_eq_true] at hg
    rw [analyze_elems.eq_def]
    exact analyze_elems_rc rest cls classes hg.2 h
termination_by 2 * sizeOf xs + 1
decreasing_by all_goals simp_wf <;> omega

end

theorem almostClosed_nil (S : List String) : AlmostClosed [] S := by
  intro p hp
  simp at hp

/-- Counterexample for C3: an empty-object field stores the class
reference `Addr` but the builder never creates a class `Addr` (the
recursion on line 93 requires a non-empty dict), so the claimed
no-dangling-reference property fails exactly in the empty-object case
the claim includes. -/
theorem c3_dangling_ref_counterexample :
    lookupField (analyze_json_structure (JVal.obj [("addr", JVal.obj [])]) "Root")
        "Root" "addr" = some ⟨JavaType.ClassRef "Addr", "addr"⟩ ∧
    refsClosedB (analyze_json_structure (JVal.obj [("addr", JVal.obj [])]) "Root") = false := by
  constructor
  · simp [analyze_json_structure, analyze_object, analyze_fields, analyze_value,
      analyze_elems, ensureClass, setField, upsert, lookupKey, lookupField]
    decide
  · simp [analyze_json_structure, analyze_object, analyze_fields, analyze_value,
      analyze_elems, ensureClass, setField, upsert, lookupKey, refsClosedB, refsOf]
    decide

/-- C3 (amended): provided every object occurring in the document is
non-empty and no array's first element is itself an array, every
`ObjectRef` in the returned schema refers to a class of the same map;
the list-of-objects case is covered, but an empty-object field (and a
nested array whose head is an array) produces a dangling reference, so
those cases are excluded. -/
theorem c3_refs_closed_amended (root : JVal) (cls : String) (hg : goodVal root = true) :
    refsClosedB (analyze_json_structure root cls) = true := by
  rw [refsClosedB_iff]
  cases root with
  | obj kvs =>
    rw [goodVal, Bool.and_eq_true] at hg
    show AlmostClosed (analyze_object kvs cls []) []
    exact analyze_object_rc kvs cls [] hg.2 (almostClosed_nil [cls])
  | arr xs =>
    rw [goodVal, Bool.and_eq_true] at hg
    cases xs with
    | nil => exact almostClosed_nil []
    | cons x0 rest =>
      have hg2 := hg.2
      rw [goodElemsB, Bool.and_eq_true] at hg2
      cases x0 with
      | obj fkvs =>
        have hgf : goodFieldsB fkvs = true := by
          have hv := hg2.1
          rw [goodVal, Bool.and_eq_true] at hv
          exact hv.2
        show AlmostClosed (analyze_elems rest cls (analyze_object fkvs cls [])) []
        exact analyze_elems_rc rest cls _ hg2.2
          (analyze_object_rc fkvs cls [] hgf (almostClosed_nil [cls]))
      | null => exact almostClosed_nil []
      | bool b => exact almostClosed_nil []
      | int n => exact almostClosed_nil []
      | float => exact almostClosed_nil []
      | str s => exact almostClosed_nil []
      | arr ys => exact almostClosed_nil []
  | null => exact almostClosed_nil []
  | bool b => exact almostClosed_nil []
  | int n => exact almostClosed_nil []
  | float => exact almostClosed_nil []
  | str s => exact almostClosed_nil []

/-- Witness for C3 (amended): a document with a non-empty nested object
and a list of objects; the resulting schema has no dangling reference. -/
theorem c3_refs_closed_amended_witness :
    refsClosedB
      (analyze_json_structure
        (JVal.obj [("addr", JVal.obj [("city", JVal.str "NY")]),
                   ("items", JVal.arr [JVal.obj [("a", JVal.int 1)]])])
        "Root") = true :=
  c3_refs_closed_amended _ "Root"
    (by simp [goodVal, goodFieldsB, goodElemsB, goodFirstNotArr])
